import Mathlib

/-!
Verification of the reflection-based value-to-Go-expression encoder in
`internal/cmd/builtin/cmd/generate.go` (functions `indirectType` and
`constructValue`, and the `types` table).

The embedding is shallow: `reflect.Type`, as consumed by `indirectType`,
becomes the inductive `Ty`; `reflect.Value`, as dispatched on by
`constructValue`, becomes the inductive `RValue`; the `jen` code objects built
by the source become the inductives `TypeExpr` and `Expr`.  Go's
`(jen.Code, error)` return pair becomes `Except String Expr`.  The Go map
`jen.Dict` receives insertions in the order the source loops perform them;
it is modelled as the association list of those insertions, in order.
-/

/-- Kinds of the scalar (primitive) values the encoder dispatches on, the
seventeen `reflect.Kind` cases listed in the scalar branch of
`constructValue`. -/
inductive SKind where
  | bool
  | int
  | int8
  | int16
  | int32
  | int64
  | uint
  | uint8
  | uint16
  | uint32
  | uint64
  | uintptr
  | float32
  | float64
  | complex64
  | complex128
  | string
deriving DecidableEq, Repr

/-- The fragment of `reflect.Type` the resolver `indirectType` inspects: a
kind together with the element types it recurses into.  Every kind on which
`indirectType` does not recurse (scalar, interface, struct, func, ...) is
identified by its package path and local name, because `indirectType` reads
only `PkgPath()` and `Name()` from such types. -/
inductive Ty where
  | mapT (key val : Ty)
  | ptrT (elem : Ty)
  | arrayT (elem : Ty)
  | sliceT (elem : Ty)
  | named (pkgPath name : String)
deriving DecidableEq, Repr

/-- The type expressions `indirectType` builds out of `jen` combinators:
`Index(k) v` renders `[k]v` (map types), `Op("*") t` renders `*t`,
`Index() t` renders `[]t`, and `Qual(path, name)` a qualified name. -/
inductive TypeExpr where
  | qual (pkgPath name : String)
  | indexKey (key val : TypeExpr)
  | star (elem : TypeExpr)
  | indexEmpty (elem : TypeExpr)
deriving DecidableEq, Repr

/-- Model of `indirectType`: the type-expression resolver.  Map types recurse
on key and element, pointer types on the pointee, array and slice types both
render as `Index()` (that is, `[]Elem`) recursing on the element, and every
other type falls to the default case `Qual(typ.PkgPath(), typ.Name())`. -/
def indirectType : Ty → TypeExpr
  | .mapT key val => .indexKey (indirectType key) (indirectType val)
  | .ptrT elem => .star (indirectType elem)
  | .arrayT elem => .indexEmpty (indirectType elem)
  | .sliceT elem => .indexEmpty (indirectType elem)
  | .named pkgPath name => .qual pkgPath name

/-- The fragment of `reflect.Value` that `constructValue` consumes.  Scalars
carry their kind and an abstract payload standing for the machine value
(`jen.Lit` reproduces the Go value verbatim, so its exact representation is
irrelevant to the encoder's structure).  `sliceV`/`mapV` with `none` model a
nil (absent) slice/map reference as reported by `v.IsNil()`, with `some`
a present one; `ifaceV`/`ptrV` likewise.  Element types are recorded where
`constructValue` reads `v.Type()` and hands it to `indirectType`.  Struct
fields are the ordered `(name, CanInterface, value)` triples reflection
enumerates.  `unsupportedV` stands for a value of any kind with no case in
the dispatch (func, chan, unsafe pointer), carrying the kind's print name. -/
inductive RValue where
  | scalar (k : SKind) (payload : Nat)
  | arrayV (elem : Ty) (elems : List RValue)
  | sliceV (elem : Ty) (elems : Option (List RValue))
  | ifaceV (inner : Option RValue)
  | ptrV (inner : Option RValue)
  | mapV (key val : Ty) (entries : Option (List (RValue × RValue)))
  | structV (pkgPath name : String) (fields : List (String × Bool × RValue))
  | unsupportedV (kind : String)

/-- The code expressions `constructValue` builds: the `nil` identifier, a
primitive literal (`jen.Lit` of a value of canonical kind `k`), a plain
identifier (struct field keys), an address-of prefix, a composite literal
`T{e0, e1, ...}` from `Values(list...)`, and a keyed composite literal
`T{k0: v0, ...}` from `Values(jen.Dict)` with the entries listed in
insertion order. -/
inductive Expr where
  | nilE
  | litE (k : SKind) (payload : Nat)
  | id (name : String)
  | amp (e : Expr)
  | composite (t : TypeExpr) (elems : List Expr)
  | compositeDict (t : TypeExpr) (entries : List (Expr × Expr))

/-- Model of the `types` table: the map from `reflect.Kind` to the canonical
`reflect.Type` of that kind, one entry per primitive kind.  A canonical
primitive type is determined by its kind, so the table value is modelled by
that kind. -/
def types : List (SKind × SKind) :=
  [ (.bool, .bool),
    (.int, .int),
    (.int8, .int8),
    (.int16, .int16),
    (.int32, .int32),
    (.int64, .int64),
    (.uint, .uint),
    (.uint8, .uint8),
    (.uint16, .uint16),
    (.uint32, .uint32),
    (.uint64, .uint64),
    (.uintptr, .uintptr),
    (.float32, .float32),
    (.float64, .float64),
    (.complex64, .complex64),
    (.complex128, .complex128),
    (.string, .string) ]

mutual

/-- Model of `constructValue`.  Each branch mirrors one `case` of the Go
switch on `v.Kind()`: arrays resolve `[]Elem` and encode every element in
index order; slices first test `v.IsNil()`; interfaces unwrap to `v.Elem()`;
pointers emit `&` before the encoded pointee; maps iterate the key list
encoding key then value per entry; structs skip fields with
`!field.CanInterface()` and key entries by field name; scalars convert to
the canonical type found in `types` and emit a literal (`types` misses no
dispatched kind, so the `none` branch models the `Convert(nil)` panic);
any other kind returns the `unsupport value kind` error.  Every error from
a recursive call returns immediately, dropping the partial expression. -/
def constructValue : RValue → Except String Expr
  | .arrayV elem elems =>
      match constructList elems with
      | .error err => .error err
      | .ok values => .ok (.composite (indirectType (.arrayT elem)) values)
  | .sliceV _ none => .ok .nilE
  | .sliceV elem (some elems) =>
      match constructList elems with
      | .error err => .error err
      | .ok values => .ok (.composite (indirectType (.sliceT elem)) values)
  | .ifaceV none => .ok .nilE
  | .ifaceV (some w) => constructValue w
  | .ptrV none => .ok .nilE
  | .ptrV (some w) =>
      match constructValue w with
      | .error err => .error err
      | .ok val => .ok (.amp val)
  | .mapV _ _ none => .ok .nilE
  | .mapV key val (some entries) =>
      match constructEntries entries with
      | .error err => .error err
      | .ok values => .ok (.compositeDict (indirectType (.mapT key val)) values)
  | .structV pkgPath name fields =>
      match constructFields fields with
      | .error err => .error err
      | .ok values => .ok (.compositeDict (indirectType (.named pkgPath name)) values)
  | .scalar k payload =>
      match types.lookup k with
      | some t => .ok (.litE t payload)
      | none => .error "reflect: Convert on nil Type"
  | .unsupportedV kind => .error ("unsupport value kind " ++ kind)

/-- The element loop shared by the array and slice branches of
`constructValue`: encode each element in index order, stopping at the first
error. -/
def constructList : List RValue → Except String (List Expr)
  | [] => .ok []
  | v :: vs =>
      match constructValue v with
      | .error err => .error err
      | .ok e =>
        match constructList vs with
        | .error err => .error err
        | .ok es => .ok (e :: es)

/-- The `MapKeys` loop of the map branch: for each entry in iteration order,
encode the key, then the value, stopping at the first error. -/
def constructEntries : List (RValue × RValue) → Except String (List (Expr × Expr))
  | [] => .ok []
  | (k, v) :: rest =>
      match constructValue k with
      | .error err => .error err
      | .ok ke =>
        match constructValue v with
        | .error err => .error err
        | .ok ve =>
          match constructEntries rest with
          | .error err => .error err
          | .ok es => .ok ((ke, ve) :: es)

/-- The field loop of the struct branch: fields with `CanInterface() = false`
are skipped entirely (no entry, no recursion, no error); participating
fields are encoded and keyed by their name, in declaration order. -/
def constructFields : List (String × Bool × RValue) → Except String (List (Expr × Expr))
  | [] => .ok []
  | (name, vis, v) :: rest =>
      if !vis then constructFields rest
      else
        match constructValue v with
        | .error err => .error err
        | .ok ve =>
          match constructFields rest with
          | .error err => .error err
          | .ok es => .ok ((.id name, ve) :: es)

end

/-- Tests whether an expression is the `nil` identifier. -/
def Expr.isNil : Expr → Bool
  | .nilE => true
  | _ => false

/-- Tests whether an expression is a composite literal (either form).  In Go
a composite literal is an addressable operand of the address-of operator,
while other expressions produced by the encoder (literals, `nil`, `&x`) are
not. -/
def Expr.isCompositeLit : Expr → Bool
  | .composite _ _ => true
  | .compositeDict _ _ => true
  | _ => false

/-- Tests whether a dictionary-entry key is the identifier `name`. -/
def Expr.keyIs : Expr → String → Bool
  | .id n, name => n == name
  | _, _ => false

mutual

/-- Predicate from the claims: every reachable component of the value (array
and slice elements, map keys and values, pointees, interface contents, and
accessible struct fields) has one of the kinds `constructValue` dispatches
on.  Fields reflection marks inaccessible are unconstrained, because the
encoder skips them before recursing. -/
def supported : RValue → Bool
  | .scalar _ _ => true
  | .arrayV _ elems => supportedList elems
  | .sliceV _ none => true
  | .sliceV _ (some elems) => supportedList elems
  | .ifaceV none => true
  | .ifaceV (some w) => supported w
  | .ptrV none => true
  | .ptrV (some w) => supported w
  | .mapV _ _ none => true
  | .mapV _ _ (some entries) => supportedEntries entries
  | .structV _ _ fields => supportedFields fields
  | .unsupportedV _ => false

/-- Pointwise `supported` over element lists. -/
def supportedList : List RValue → Bool
  | [] => true
  | v :: vs => supported v && supportedList vs

/-- Pointwise `supported` over map entries. -/
def supportedEntries : List (RValue × RValue) → Bool
  | [] => true
  | (k, v) :: rest => supported k && supported v && supportedEntries rest

/-- Pointwise `supported` over struct fields, skipping inaccessible ones. -/
def supportedFields : List (String × Bool × RValue) → Bool
  | [] => true
  | (_, vis, v) :: rest => (!vis || supported v) && supportedFields rest

end

mutual

/-- Restriction of a value to its participating fields: inaccessible struct
fields are removed, recursively, everywhere the encoder would visit.  The
round-trip property compares the reconstructed value against this
restriction, since the encoder omits non-participating fields by design. -/
def strip : RValue → RValue
  | .scalar k p => .scalar k p
  | .arrayV t elems => .arrayV t (stripList elems)
  | .sliceV t none => .sliceV t none
  | .sliceV t (some elems) => .sliceV t (some (stripList elems))
  | .ifaceV none => .ifaceV none
  | .ifaceV (some w) => .ifaceV (some (strip w))
  | .ptrV none => .ptrV none
  | .ptrV (some w) => .ptrV (some (strip w))
  | .mapV k v none => .mapV k v none
  | .mapV k v (some entries) => .mapV k v (some (stripEntries entries))
  | .structV p n fields => .structV p n (stripFields fields)
  | .unsupportedV k => .unsupportedV k

/-- Pointwise `strip` over element lists. -/
def stripList : List RValue → List RValue
  | [] => []
  | v :: vs => strip v :: stripList vs

/-- Pointwise `strip` over map entries. -/
def stripEntries : List (RValue × RValue) → List (RValue × RValue)
  | [] => []
  | (k, v) :: rest => (strip k, strip v) :: stripEntries rest

/-- Keep only participating fields, stripping their values. -/
def stripFields : List (String × Bool × RValue) → List (String × Bool × RValue)
  | [] => []
  | (name, vis, v) :: rest =>
      if vis then (name, vis, strip v) :: stripFields rest else stripFields rest

end

mutual

/-- Model of compiling and executing an encoder output expression in a
context whose expected type is the dynamic type of the target value, per
Go's evaluation rules for the expression forms the encoder emits:

* `nil` evaluates to the nil slice, nil map, nil pointer, or nil interface
  demanded by the context — and to nothing else; in particular, in an
  interface-typed context it yields the nil interface, never an interface
  holding a typed nil.
* In an interface-typed context, any non-`nil` expression evaluates to an
  interface holding the value the expression evaluates to at its own type.
* A literal of canonical kind `k` evaluates to the scalar it denotes.
* `&e` evaluates to a pointer to the value of `e`, and is legal only when
  `e` is a composite literal (the encoder never emits other addressable
  operands).
* A `[]E{...}` composite literal always evaluates to a slice — Go has no
  context in which it denotes a fixed-length array.
* A `T{F: e, ...}` keyed literal of a qualified struct type evaluates to a
  struct whose listed fields hold the values of the listed expressions (a
  reconstructed record is compared after restriction to participating
  fields, so the entry list must match the restricted field list
  one-to-one, in order).
* A keyed literal whose type expression is `[K]V` — the form the resolver
  produces for map types, since it builds a plain index expression and not
  a `map[K]V` type — is not valid Go at all: a map composite literal needs
  the `map` keyword, and a type expression is not an array length.  Such an
  encoding never compiles, so it evaluates to nothing: there is no rule for
  it, and in particular no present map value is ever reconstructed. -/
def reconstructs : Expr → RValue → Bool
  | e, .ifaceV (some w) => !e.isNil && reconstructs e w
  | .nilE, .ifaceV none => true
  | .nilE, .sliceV _ none => true
  | .nilE, .mapV _ _ none => true
  | .nilE, .ptrV none => true
  | .litE k p, .scalar k1 p1 => k == k1 && p == p1
  | .amp e, .ptrV (some w) => e.isCompositeLit && reconstructs e w
  | .composite t es, .sliceV elem (some ws) =>
      decide (t = indirectType (.sliceT elem)) && reconstructsList es ws
  | .compositeDict t es, .structV pkgPath name fields =>
      decide (t = indirectType (.named pkgPath name)) && reconstructsFields es fields
  | _, _ => false

/-- Pointwise reconstruction of a list of elements. -/
def reconstructsList : List Expr → List RValue → Bool
  | [], [] => true
  | e :: es, w :: ws => reconstructs e w && reconstructsList es ws
  | _, _ => false

/-- Pointwise reconstruction of the entries of a keyed struct literal
against an (already restricted) field list. -/
def reconstructsFields : List (Expr × Expr) → List (String × Bool × RValue) → Bool
  | [], [] => true
  | (ke, ve) :: es, (name, _, w) :: fs =>
      ke.keyIs name && reconstructs ve w && reconstructsFields es fs
  | _, _ => false

end

/-- Values whose encoding is the `nil` identifier: nil slices, maps,
pointers and interfaces, and interfaces holding such a value. -/
def isNilEncoded : RValue → Bool
  | .sliceV _ none => true
  | .ptrV none => true
  | .mapV _ _ none => true
  | .ifaceV none => true
  | .ifaceV (some w) => isNilEncoded w
  | _ => false

/-- Values whose encoding is a composite literal: arrays, present slices and
maps, structs, and interfaces holding such a value. -/
def isCompositeEncoded : RValue → Bool
  | .arrayV _ _ => true
  | .sliceV _ (some _) => true
  | .mapV _ _ (some _) => true
  | .structV _ _ _ => true
  | .ifaceV (some w) => isCompositeEncoded w
  | _ => false

mutual

/-- Hypothesis of the amended round-trip: the value is supported and avoids
the four shapes whose encodings do not compile or do not evaluate back to
the value: fixed-length arrays (encoded as slice literals), present maps
(encoded as `[K]V{...}` keyed literals, which are not valid Go because the
resolver never emits the `map` keyword), pointers to anything but a
composite-encoded value (`&` demands an addressable operand), and
interfaces holding a value that encodes to `nil` (the compiled `nil`
yields a nil interface, not an interface holding a typed nil). -/
def good : RValue → Bool
  | .scalar _ _ => true
  | .arrayV _ _ => false
  | .sliceV _ none => true
  | .sliceV _ (some elems) => goodList elems
  | .ifaceV none => true
  | .ifaceV (some w) => !isNilEncoded w && good w
  | .ptrV none => true
  | .ptrV (some w) => isCompositeEncoded w && good w
  | .mapV _ _ none => true
  | .mapV _ _ (some _) => false
  | .structV _ _ fields => goodFields fields
  | .unsupportedV _ => false

/-- Pointwise `good` over element lists. -/
def goodList : List RValue → Bool
  | [] => true
  | v :: vs => good v && goodList vs

/-- Pointwise `good` over struct fields, skipping inaccessible ones. -/
def goodFields : List (String × Bool × RValue) → Bool
  | [] => true
  | (_, vis, v) :: rest => (!vis || good v) && goodFields rest

end

mutual

/-- Every map contained in the value (at any depth, including inside
non-participating fields) is absent, empty, or has exactly one entry. -/
def smallMaps : RValue → Bool
  | .scalar _ _ => true
  | .arrayV _ elems => smallMapsList elems
  | .sliceV _ none => true
  | .sliceV _ (some elems) => smallMapsList elems
  | .ifaceV none => true
  | .ifaceV (some w) => smallMaps w
  | .ptrV none => true
  | .ptrV (some w) => smallMaps w
  | .mapV _ _ none => true
  | .mapV _ _ (some entries) =>
      decide (entries.length ≤ 1) && smallMapsEntries entries
  | .structV _ _ fields => smallMapsFields fields
  | .unsupportedV _ => true

/-- Pointwise `smallMaps` over element lists. -/
def smallMapsList : List RValue → Bool
  | [] => true
  | v :: vs => smallMaps v && smallMapsList vs

/-- Pointwise `smallMaps` over map entries. -/
def smallMapsEntries : List (RValue × RValue) → Bool
  | [] => true
  | (k, v) :: rest => smallMaps k && smallMaps v && smallMapsEntries rest

/-- Pointwise `smallMaps` over struct fields. -/
def smallMapsFields : List (String × Bool × RValue) → Bool
  | [] => true
  | (_, _, v) :: rest => smallMaps v && smallMapsFields rest

end

mutual

/-- Two reflection snapshots of the same in-memory value taken by two runs
of the encoder: identical everywhere except that each map's entry list may
be enumerated by `MapKeys` in a different order (a permutation), at every
depth.  This is the only nondeterminism the host reflection facility
introduces. -/
inductive RunEquiv : RValue → RValue → Prop where
  | scalar {k : SKind} {p : Nat} : RunEquiv (.scalar k p) (.scalar k p)
  | arrayV {t : Ty} {es es1 : List RValue} :
      RunEquivList es es1 → RunEquiv (.arrayV t es) (.arrayV t es1)
  | sliceNone {t : Ty} : RunEquiv (.sliceV t none) (.sliceV t none)
  | sliceSome {t : Ty} {es es1 : List RValue} :
      RunEquivList es es1 → RunEquiv (.sliceV t (some es)) (.sliceV t (some es1))
  | ifaceNone : RunEquiv (.ifaceV none) (.ifaceV none)
  | ifaceSome {w w1 : RValue} :
      RunEquiv w w1 → RunEquiv (.ifaceV (some w)) (.ifaceV (some w1))
  | ptrNone : RunEquiv (.ptrV none) (.ptrV none)
  | ptrSome {w w1 : RValue} :
      RunEquiv w w1 → RunEquiv (.ptrV (some w)) (.ptrV (some w1))
  | mapNone {kt vt : Ty} : RunEquiv (.mapV kt vt none) (.mapV kt vt none)
  | mapSome {kt vt : Ty} {es mid es1 : List (RValue × RValue)} :
      RunEquivEntries es mid → List.Perm mid es1 →
      RunEquiv (.mapV kt vt (some es)) (.mapV kt vt (some es1))
  | structV {p n : String} {fs fs1 : List (String × Bool × RValue)} :
      RunEquivFields fs fs1 → RunEquiv (.structV p n fs) (.structV p n fs1)
  | unsupportedV {k : String} : RunEquiv (.unsupportedV k) (.unsupportedV k)

/-- Pointwise `RunEquiv` over element lists. -/
inductive RunEquivList : List RValue → List RValue → Prop where
  | nil : RunEquivList [] []
  | cons {v v1 : RValue} {vs vs1 : List RValue} :
      RunEquiv v v1 → RunEquivList vs vs1 → RunEquivList (v :: vs) (v1 :: vs1)

/-- Pointwise `RunEquiv` over map entries. -/
inductive RunEquivEntries : List (RValue × RValue) → List (RValue × RValue) → Prop where
  | nil : RunEquivEntries [] []
  | cons {k k1 v v1 : RValue} {rest rest1 : List (RValue × RValue)} :
      RunEquiv k k1 → RunEquiv v v1 → RunEquivEntries rest rest1 →
      RunEquivEntries ((k, v) :: rest) ((k1, v1) :: rest1)

/-- Pointwise `RunEquiv` over struct fields. -/
inductive RunEquivFields :
    List (String × Bool × RValue) → List (String × Bool × RValue) → Prop where
  | nil : RunEquivFields [] []
  | cons {nm : String} {vis : Bool} {v v1 : RValue}
      {rest rest1 : List (String × Bool × RValue)} :
      RunEquiv v v1 → RunEquivFields rest rest1 →
      RunEquivFields ((nm, vis, v) :: rest) ((nm, vis, v1) :: rest1)

end

/-- Discriminating observation on encoder results: the payload of the first
entry key of a keyed composite literal (0 otherwise).  Used to tell apart
two encodings that differ only in map entry order. -/
def firstEntryKeyPayload : Except String Expr → Nat
  | .ok (.compositeDict _ ((.litE _ p, _) :: _)) => p
  | _ => 0

theorem constructList_cons_ok {v : RValue} {vs : List RValue} {out : List Expr}
    (h : constructList (v :: vs) = .ok out) :
    ∃ e es, constructValue v = .ok e ∧ constructList vs = .ok es ∧ out = e :: es := by
  cases hv : constructValue v with
  | error err => simp [constructList, hv] at h
  | ok e =>
    cases hl : constructList vs with
    | error err => simp [constructList, hv, hl] at h
    | ok es =>
      simp [constructList, hv, hl] at h
      exact ⟨e, es, rfl, rfl, h.symm⟩

theorem constructEntries_cons_ok {k v : RValue} {rest : List (RValue × RValue)}
    {out : List (Expr × Expr)}
    (h : constructEntries ((k, v) :: rest) = .ok out) :
    ∃ ke ve es, constructValue k = .ok ke ∧ constructValue v = .ok ve ∧
      constructEntries rest = .ok es ∧ out = (ke, ve) :: es := by
  cases hk : constructValue k with
  | error err => simp [constructEntries, hk] at h
  | ok ke =>
    cases hv : constructValue v with
    | error err => simp [constructEntries, hk, hv] at h
    | ok ve =>
      cases hr : constructEntries rest with
      | error err => simp [constructEntries, hk, hv, hr] at h
      | ok es =>
        simp [constructEntries, hk, hv, hr] at h
        exact ⟨ke, ve, es, rfl, rfl, rfl, h.symm⟩

theorem constructFields_cons_ok {fname : String} {v : RValue}
    {rest : List (String × Bool × RValue)} {out : List (Expr × Expr)}
    (h : constructFields ((fname, true, v) :: rest) = .ok out) :
    ∃ ve es, constructValue v = .ok ve ∧ constructFields rest = .ok es ∧
      out = (.id fname, ve) :: es := by
  cases hv : constructValue v with
  | error err => simp [constructFields, hv] at h
  | ok ve =>
    cases hr : constructFields rest with
    | error err => simp [constructFields, hv, hr] at h
    | ok es =>
      simp [constructFields, hv, hr] at h
      exact ⟨ve, es, rfl, rfl, h.symm⟩

theorem constructList_forall : ∀ {vs : List RValue} {es : List Expr},
    constructList vs = .ok es →
    List.Forall₂ (fun v e => constructValue v = .ok e) vs es := by
  intro vs
  induction vs with
  | nil =>
    intro es h
    simp [constructList] at h
    simp [← h]
  | cons v vs ih =>
    intro es h
    obtain ⟨e, es1, hv, hl, rfl⟩ := constructList_cons_ok h
    exact List.Forall₂.cons hv (ih hl)

theorem constructEntries_forall : ∀ {ws : List (RValue × RValue)} {es : List (Expr × Expr)},
    constructEntries ws = .ok es →
    List.Forall₂ (fun w e => constructValue w.1 = .ok e.1 ∧ constructValue w.2 = .ok e.2) ws es := by
  intro ws
  induction ws with
  | nil =>
    intro es h
    simp [constructEntries] at h
    simp [← h]
  | cons w ws ih =>
    intro es h
    obtain ⟨k, v⟩ := w
    obtain ⟨ke, ve, es1, hk, hv, hr, rfl⟩ := constructEntries_cons_ok h
    exact List.Forall₂.cons ⟨hk, hv⟩ (ih hr)

theorem constructFields_forall : ∀ {fields : List (String × Bool × RValue)}
    {es : List (Expr × Expr)},
    constructFields fields = .ok es →
    List.Forall₂ (fun f e => e.1 = Expr.id f.1 ∧ constructValue f.2.2 = .ok e.2)
      (fields.filter fun f => f.2.1) es := by
  intro fields
  induction fields with
  | nil =>
    intro es h
    simp [constructFields] at h
    simp [← h]
  | cons f rest ih =>
    intro es h
    obtain ⟨fname, vis, v⟩ := f
    cases vis with
    | false =>
      rw [show constructFields ((fname, false, v) :: rest) = constructFields rest from rfl] at h
      simpa using ih h
    | true =>
      obtain ⟨ve, es1, hv, hr, rfl⟩ := constructFields_cons_ok h
      simp only [List.filter_cons]
      refine List.Forall₂.cons ?_ (ih hr)
      exact ⟨rfl, hv⟩

/-- C8: the Type Descriptor Resolver `indirectType` is total — it is a plain
function in this development, defined on every type descriptor with no error
outcome — and satisfies exactly the recursion scheme of the source: map
types recurse on key and value, pointer types on the pointee, array and
slice types both produce an `[]Elem` index expression recursing on the
element, and every other kind yields the qualified name without recursion. -/
theorem indirectType_total :
    (∀ key val : Ty,
      indirectType (.mapT key val) = .indexKey (indirectType key) (indirectType val)) ∧
    (∀ t : Ty, indirectType (.ptrT t) = .star (indirectType t)) ∧
    (∀ t : Ty, indirectType (.arrayT t) = .indexEmpty (indirectType t)) ∧
    (∀ t : Ty, indirectType (.sliceT t) = .indexEmpty (indirectType t)) ∧
    (∀ pkgPath nm : String, indirectType (.named pkgPath nm) = .qual pkgPath nm) :=
  ⟨fun _ _ => rfl, fun _ => rfl, fun _ => rfl, fun _ => rfl, fun _ _ => rfl⟩

/-- C3: an absent polymorphic (interface) slot encodes to the `nil`
identifier, and a present one encodes to exactly the encoding of the
concrete held value — the same `(expression, error)` result, with no
residual wrapper. -/
theorem interface_unwrap :
    constructValue (.ifaceV none) = .ok .nilE ∧
    ∀ c : RValue, constructValue (.ifaceV (some c)) = constructValue c :=
  ⟨rfl, fun c => by simp [constructValue]⟩

/-- C6: a value whose kind has no encoding rule makes `constructValue`
return the error naming the offending kind; the `Except.error` result
carries no expression, modelling the Go `(nil, err)` return. -/
theorem unsupported_kind_error :
    ∀ kind : String,
      constructValue (.unsupportedV kind) = .error ("unsupport value kind " ++ kind) :=
  fun _ => rfl

/-- C2: a slice value encodes to the `nil` identifier exactly when the slice
reference is absent.  A present-but-empty slice yields a composite literal
of the resolved slice type with zero elements; a present non-empty slice
yields that composite literal with every element recursively encoded in
original index order; no present slice ever encodes to `nil`. -/
theorem slice_nil_distinction :
    (∀ t : Ty, constructValue (.sliceV t none) = .ok .nilE) ∧
    (∀ t : Ty, constructValue (.sliceV t (some [])) =
      .ok (.composite (.indexEmpty (indirectType t)) [])) ∧
    (∀ (t : Ty) (vs : List RValue) (es : List Expr), constructList vs = .ok es →
      constructValue (.sliceV t (some vs)) =
        .ok (.composite (.indexEmpty (indirectType t)) es) ∧
      List.Forall₂ (fun v e => constructValue v = .ok e) vs es) ∧
    (∀ (t : Ty) (vs : List RValue) (e : Expr),
      constructValue (.sliceV t (some vs)) = .ok e → e ≠ .nilE) := by
  refine ⟨fun t => rfl, fun t => rfl, fun t vs es h => ⟨?_, constructList_forall h⟩, ?_⟩
  · simp [constructValue, h, indirectType]
  · intro t vs e h
    cases hl : constructList vs with
    | error err => simp [constructValue, hl] at h
    | ok es =>
      simp [constructValue, hl] at h
      simp [← h]

theorem slice_nil_distinction_witness :
    (constructValue (.sliceV (.named "" "int") (some [.scalar .int 5])) =
      .ok (.composite (.indexEmpty (indirectType (.named "" "int"))) [.litE .int 5]) ∧
     List.Forall₂ (fun v e => constructValue v = .ok e)
       [RValue.scalar .int 5] [Expr.litE .int 5]) ∧
    Expr.composite (.indexEmpty (.qual "" "int")) [.litE .int 5] ≠ Expr.nilE :=
  ⟨slice_nil_distinction.2.2.1 (.named "" "int") [.scalar .int 5] [.litE .int 5] rfl,
   slice_nil_distinction.2.2.2 (.named "" "int") [.scalar .int 5]
     (.composite (.indexEmpty (.qual "" "int")) [.litE .int 5]) rfl⟩

/-- C4: a present map encodes to a keyed composite literal of the resolved
map type whose entry list is exactly the encoding of the source entry list
in the order the entries were encountered when iterating the map — nothing
reorders or sorts the entries handed to the renderer. -/
theorem map_entry_order :
    ∀ (key val : Ty) (ws : List (RValue × RValue)) (es : List (Expr × Expr)),
      constructEntries ws = .ok es →
      constructValue (.mapV key val (some ws)) =
        .ok (.compositeDict (.indexKey (indirectType key) (indirectType val)) es) ∧
      List.Forall₂ (fun w e => constructValue w.1 = .ok e.1 ∧ constructValue w.2 = .ok e.2)
        ws es := by
  intro key val ws es h
  exact ⟨by simp [constructValue, h, indirectType], constructEntries_forall h⟩

theorem map_entry_order_witness :
    constructValue (.mapV (.named "" "int") (.named "" "int")
        (some [(.scalar .int 2, .scalar .int 20), (.scalar .int 1, .scalar .int 10)])) =
      .ok (.compositeDict (.indexKey (indirectType (.named "" "int"))
          (indirectType (.named "" "int")))
        [(.litE .int 2, .litE .int 20), (.litE .int 1, .litE .int 10)]) ∧
    List.Forall₂ (fun w e => constructValue w.1 = .ok e.1 ∧ constructValue w.2 = .ok e.2)
      [((RValue.scalar .int 2), (RValue.scalar .int 20)),
       ((RValue.scalar .int 1), (RValue.scalar .int 10))]
      [((Expr.litE .int 2), (Expr.litE .int 20)),
       ((Expr.litE .int 1), (Expr.litE .int 10))] :=
  map_entry_order (.named "" "int") (.named "" "int")
    [(.scalar .int 2, .scalar .int 20), (.scalar .int 1, .scalar .int 10)]
    [(.litE .int 2, .litE .int 20), (.litE .int 1, .litE .int 10)] rfl

/-- C5: a struct value encodes to a keyed composite literal of the resolved
struct type with exactly one field-name-keyed entry per participating field,
in declaration order (the filtered field list), while every field marked
non-participating is skipped without an entry and without an error — the
skip happens before any recursion, so even a non-encodable value in a
non-participating field cannot fail. -/
theorem struct_field_entries :
    (∀ (pkgPath nm : String) (fields : List (String × Bool × RValue))
        (es : List (Expr × Expr)),
      constructFields fields = .ok es →
      constructValue (.structV pkgPath nm fields) =
        .ok (.compositeDict (.qual pkgPath nm) es) ∧
      List.Forall₂ (fun f e => e.1 = Expr.id f.1 ∧ constructValue f.2.2 = .ok e.2)
        (fields.filter fun f => f.2.1) es) ∧
    (∀ (fname : String) (v : RValue) (rest : List (String × Bool × RValue)),
      constructFields ((fname, false, v) :: rest) = constructFields rest) := by
  refine ⟨fun pkgPath nm fields es h => ⟨?_, constructFields_forall h⟩, fun _ _ _ => rfl⟩
  simp [constructValue, h, indirectType]

theorem struct_field_entries_witness :
    (constructValue (.structV "pkg" "T"
        [("A", true, .scalar .int 1), ("b", false, .unsupportedV "func")]) =
      .ok (.compositeDict (.qual "pkg" "T") [(.id "A", .litE .int 1)]) ∧
     List.Forall₂ (fun f e => e.1 = Expr.id f.1 ∧ constructValue f.2.2 = .ok e.2)
       ([("A", true, RValue.scalar .int 1),
         ("b", false, RValue.unsupportedV "func")].filter fun f => f.2.1)
       [((Expr.id "A"), (Expr.litE .int 1))]) ∧
    constructFields [("b", false, RValue.unsupportedV "func")] = constructFields [] :=
  ⟨struct_field_entries.1 "pkg" "T"
     [("A", true, .scalar .int 1), ("b", false, .unsupportedV "func")]
     [(.id "A", .litE .int 1)] rfl,
   struct_field_entries.2 "b" (.unsupportedV "func") []⟩

/-- C7: every error produced by a recursive encoding call propagates
unchanged through the enclosing construction — each composite branch
(array, slice, interface, pointer, map, struct) returns the error of its
failing subcall as its own result, every loop stops at the first failing
element, and no expression accompanies the error. -/
theorem error_propagation :
    ∀ err : String,
      (∀ (t : Ty) (vs : List RValue), constructList vs = .error err →
        constructValue (.arrayV t vs) = .error err) ∧
      (∀ (t : Ty) (vs : List RValue), constructList vs = .error err →
        constructValue (.sliceV t (some vs)) = .error err) ∧
      (∀ w : RValue, constructValue w = .error err →
        constructValue (.ifaceV (some w)) = .error err) ∧
      (∀ w : RValue, constructValue w = .error err →
        constructValue (.ptrV (some w)) = .error err) ∧
      (∀ (key val : Ty) (ws : List (RValue × RValue)), constructEntries ws = .error err →
        constructValue (.mapV key val (some ws)) = .error err) ∧
      (∀ (pkgPath nm : String) (fields : List (String × Bool × RValue)),
        constructFields fields = .error err →
        constructValue (.structV pkgPath nm fields) = .error err) ∧
      (∀ (v : RValue) (vs : List RValue), constructValue v = .error err →
        constructList (v :: vs) = .error err) ∧
      (∀ (v : RValue) (e : Expr) (vs : List RValue), constructValue v = .ok e →
        constructList vs = .error err → constructList (v :: vs) = .error err) ∧
      (∀ (k v : RValue) (rest : List (RValue × RValue)), constructValue k = .error err →
        constructEntries ((k, v) :: rest) = .error err) ∧
      (∀ (k v : RValue) (ke : Expr) (rest : List (RValue × RValue)), constructValue k = .ok ke →
        constructValue v = .error err → constructEntries ((k, v) :: rest) = .error err) ∧
      (∀ (fname : String) (v : RValue) (rest : List (String × Bool × RValue)),
        constructValue v = .error err →
        constructFields ((fname, true, v) :: rest) = .error err) := by
  intro err
  refine ⟨?_, ?_, ?_, ?_, ?_, ?_, ?_, ?_, ?_, ?_, ?_⟩
  · intro t vs h; simp [constructValue, h]
  · intro t vs h; simp [constructValue, h]
  · intro w h; simp [constructValue, h]
  · intro w h; simp [constructValue, h]
  · intro key val ws h; simp [constructValue, h]
  · intro pkgPath nm fields h; simp [constructValue, h]
  · intro v vs h; simp [constructList, h]
  · intro v e vs hv h; simp [constructList, hv, h]
  · intro k v rest h; simp [constructEntries, h]
  · intro k v ke rest hk h; simp [constructEntries, hk, h]
  · intro fname v rest h; simp [constructFields, h]

theorem error_propagation_witness :
    constructValue (.arrayV (.named "" "int") [.unsupportedV "func"]) =
      .error "unsupport value kind func" :=
  (error_propagation "unsupport value kind func").1 (.named "" "int")
    [.unsupportedV "func"] rfl

mutual

theorem supportedOkV : (v : RValue) → supported v = true → ∃ e, constructValue v = .ok e
  | .scalar k p, _ => ⟨.litE k p, by cases k <;> rfl⟩
  | .arrayV t elems, h => by
      obtain ⟨es, he⟩ := supportedOkList elems (by simpa [supported] using h)
      exact ⟨.composite (indirectType (.arrayT t)) es, by simp [constructValue, he]⟩
  | .sliceV t none, _ => ⟨.nilE, rfl⟩
  | .sliceV t (some elems), h => by
      obtain ⟨es, he⟩ := supportedOkList elems (by simpa [supported] using h)
      exact ⟨.composite (indirectType (.sliceT t)) es, by simp [constructValue, he]⟩
  | .ifaceV none, _ => ⟨.nilE, rfl⟩
  | .ifaceV (some w), h => by
      obtain ⟨e, he⟩ := supportedOkV w (by simpa [supported] using h)
      exact ⟨e, by simpa [constructValue] using he⟩
  | .ptrV none, _ => ⟨.nilE, rfl⟩
  | .ptrV (some w), h => by
      obtain ⟨e, he⟩ := supportedOkV w (by simpa [supported] using h)
      exact ⟨.amp e, by simp [constructValue, he]⟩
  | .mapV kt vt none, _ => ⟨.nilE, rfl⟩
  | .mapV kt vt (some ws), h => by
      obtain ⟨es, he⟩ := supportedOkEntries ws (by simpa [supported] using h)
      exact ⟨.compositeDict (indirectType (.mapT kt vt)) es, by simp [constructValue, he]⟩
  | .structV p n fields, h => by
      obtain ⟨es, he⟩ := supportedOkFields fields (by simpa [supported] using h)
      exact ⟨.compositeDict (indirectType (.named p n)) es, by simp [constructValue, he]⟩
  | .unsupportedV _, h => by simp [supported] at h

theorem supportedOkList :
    (vs : List RValue) → supportedList vs = true → ∃ es, constructList vs = .ok es
  | [], _ => ⟨[], rfl⟩
  | v :: vs, h => by
      have h1 : supported v = true ∧ supportedList vs = true := by
        simpa [supportedList, Bool.and_eq_true] using h
      obtain ⟨e, he⟩ := supportedOkV v h1.1
      obtain ⟨es, hes⟩ := supportedOkList vs h1.2
      exact ⟨e :: es, by simp [constructList, he, hes]⟩

theorem supportedOkEntries :
    (ws : List (RValue × RValue)) → supportedEntries ws = true →
      ∃ es, constructEntries ws = .ok es
  | [], _ => ⟨[], rfl⟩
  | (k, v) :: rest, h => by
      have h1 : supported k = true ∧ supported v = true ∧ supportedEntries rest = true := by
        simpa [supportedEntries, Bool.and_eq_true, and_assoc] using h
      obtain ⟨ke, hk⟩ := supportedOkV k h1.1
      obtain ⟨ve, hv⟩ := supportedOkV v h1.2.1
      obtain ⟨es, hes⟩ := supportedOkEntries rest h1.2.2
      exact ⟨(ke, ve) :: es, by simp [constructEntries, hk, hv, hes]⟩

theorem supportedOkFields :
    (fs : List (String × Bool × RValue)) → supportedFields fs = true →
      ∃ es, constructFields fs = .ok es
  | [], _ => ⟨[], rfl⟩
  | (nm, false, v) :: rest, h => by
      have h1 : supportedFields rest = true := by
        simpa [supportedFields] using h
      obtain ⟨es, hes⟩ := supportedOkFields rest h1
      exact ⟨es, by simpa [constructFields] using hes⟩
  | (nm, true, v) :: rest, h => by
      have h1 : supported v = true ∧ supportedFields rest = true := by
        simpa [supportedFields, Bool.and_eq_true] using h
      obtain ⟨ve, hv⟩ := supportedOkV v h1.1
      obtain ⟨es, hes⟩ := supportedOkFields rest h1.2
      exact ⟨(.id nm, ve) :: es, by simp [constructFields, hv, hes]⟩

end

/-- C10: on every value whose reachable components (elements, keys, map
values, pointees, interface contents, and accessible struct fields) all have
dispatched kinds, `constructValue` succeeds with an expression — the
unsupported-kind branch is unreachable — and every scalar kind of the
dispatch list has an entry in the `types` conversion table, so the scalar
conversion never encounters a missing type. -/
theorem success_path_total :
    (∀ v : RValue, supported v = true → ∃ e, constructValue v = .ok e) ∧
    (∀ k : SKind, (types.lookup k).isSome = true) :=
  ⟨fun v h => supportedOkV v h, fun k => by cases k <;> rfl⟩

theorem success_path_total_witness :
    ∃ e, constructValue (.structV "pkg" "T"
      [("A", true, .scalar .int 1),
       ("B", true, .ptrV (some (.structV "pkg" "U" [])))]) = .ok e :=
  success_path_total.1
    (.structV "pkg" "T"
      [("A", true, .scalar .int 1),
       ("B", true, .ptrV (some (.structV "pkg" "U" [])))]) rfl

theorem encode_not_nil : (w : RValue) → (e : Expr) → isNilEncoded w = false →
    constructValue w = .ok e → e.isNil = false
  | .scalar k p, e, _, he => by
      cases hk : types.lookup k with
      | none => simp [constructValue, hk] at he
      | some t => simp [constructValue, hk] at he; subst he; rfl
  | .arrayV t elems, e, _, he => by
      cases hl : constructList elems with
      | error err => simp [constructValue, hl] at he
      | ok es => simp [constructValue, hl] at he; subst he; rfl
  | .sliceV t none, e, hn, _ => by simp [isNilEncoded] at hn
  | .sliceV t (some elems), e, _, he => by
      cases hl : constructList elems with
      | error err => simp [constructValue, hl] at he
      | ok es => simp [constructValue, hl] at he; subst he; rfl
  | .ifaceV none, e, hn, _ => by simp [isNilEncoded] at hn
  | .ifaceV (some w), e, hn, he =>
      encode_not_nil w e (by simpa [isNilEncoded] using hn)
        (by simpa [constructValue] using he)
  | .ptrV none, e, hn, _ => by simp [isNilEncoded] at hn
  | .ptrV (some w), e, _, he => by
      cases hw : constructValue w with
      | error err => simp [constructValue, hw] at he
      | ok ew => simp [constructValue, hw] at he; subst he; rfl
  | .mapV kt vt none, e, hn, _ => by simp [isNilEncoded] at hn
  | .mapV kt vt (some ws), e, _, he => by
      cases hl : constructEntries ws with
      | error err => simp [constructValue, hl] at he
      | ok es => simp [constructValue, hl] at he; subst he; rfl
  | .structV p n fs, e, _, he => by
      cases hl : constructFields fs with
      | error err => simp [constructValue, hl] at he
      | ok es => simp [constructValue, hl] at he; subst he; rfl
  | .unsupportedV k, e, _, he => by simp [constructValue] at he

theorem encode_composite : (w : RValue) → (e : Expr) → isCompositeEncoded w = true →
    constructValue w = .ok e → e.isCompositeLit = true
  | .scalar k p, e, hc, _ => by simp [isCompositeEncoded] at hc
  | .arrayV t elems, e, _, he => by
      cases hl : constructList elems with
      | error err => simp [constructValue, hl] at he
      | ok es => simp [constructValue, hl] at he; subst he; rfl
  | .sliceV t none, e, hc, _ => by simp [isCompositeEncoded] at hc
  | .sliceV t (some elems), e, _, he => by
      cases hl : constructList elems with
      | error err => simp [constructValue, hl] at he
      | ok es => simp [constructValue, hl] at he; subst he; rfl
  | .ifaceV none, e, hc, _ => by simp [isCompositeEncoded] at hc
  | .ifaceV (some w), e, hc, he =>
      encode_composite w e (by simpa [isCompositeEncoded] using hc)
        (by simpa [constructValue] using he)
  | .ptrV none, e, hc, _ => by simp [isCompositeEncoded] at hc
  | .ptrV (some w), e, hc, _ => by simp [isCompositeEncoded] at hc
  | .mapV kt vt none, e, hc, _ => by simp [isCompositeEncoded] at hc
  | .mapV kt vt (some ws), e, _, he => by
      cases hl : constructEntries ws with
      | error err => simp [constructValue, hl] at he
      | ok es => simp [constructValue, hl] at he; subst he; rfl
  | .structV p n fs, e, _, he => by
      cases hl : constructFields fs with
      | error err => simp [constructValue, hl] at he
      | ok es => simp [constructValue, hl] at he; subst he; rfl
  | .unsupportedV k, e, hc, _ => by simp [isCompositeEncoded] at hc

mutual

theorem goRoundtripV : (v : RValue) → good v = true → (e : Expr) →
    constructValue v = .ok e → reconstructs e (strip v) = true
  | .scalar k p, _, e, he => by
      have hk : types.lookup k = some k := by cases k <;> rfl
      simp [constructValue, hk] at he
      subst he
      simp [strip, reconstructs]
  | .arrayV t elems, hg, e, _ => by simp [good] at hg
  | .sliceV t none, _, e, he => by
      simp [constructValue] at he
      subst he
      simp [strip, reconstructs]
  | .sliceV t (some elems), hg, e, he => by
      have hg1 : goodList elems = true := by simpa [good] using hg
      cases hl : constructList elems with
      | error err => simp [constructValue, hl] at he
      | ok es =>
        simp [constructValue, hl] at he
        subst he
        simp [strip, reconstructs]
        exact goRoundtripList elems hg1 es hl
  | .ifaceV none, _, e, he => by
      simp [constructValue] at he
      subst he
      simp [strip, reconstructs]
  | .ifaceV (some w), hg, e, he => by
      have h1 : isNilEncoded w = false ∧ good w = true := by
        simpa [good, Bool.and_eq_true, Bool.not_eq_true'] using hg
      have he1 : constructValue w = .ok e := by simpa [constructValue] using he
      have hn := encode_not_nil w e h1.1 he1
      have hr := goRoundtripV w h1.2 e he1
      simp [strip, reconstructs, hn, hr]
  | .ptrV none, _, e, he => by
      simp [constructValue] at he
      subst he
      simp [strip, reconstructs]
  | .ptrV (some w), hg, e, he => by
      have h1 : isCompositeEncoded w = true ∧ good w = true := by
        simpa [good, Bool.and_eq_true] using hg
      cases hw : constructValue w with
      | error err => simp [constructValue, hw] at he
      | ok ew =>
        simp [constructValue, hw] at he
        subst he
        have hc := encode_composite w ew h1.1 hw
        have hr := goRoundtripV w h1.2 ew hw
        simp [strip, reconstructs, hc, hr]
  | .mapV kt vt none, _, e, he => by
      simp [constructValue] at he
      subst he
      simp [strip, reconstructs]
  | .mapV kt vt (some ws), hg, e, he => by simp [good] at hg
  | .structV p n fields, hg, e, he => by
      have hg1 : goodFields fields = true := by simpa [good] using hg
      cases hl : constructFields fields with
      | error err => simp [constructValue, hl] at he
      | ok es =>
        simp [constructValue, hl] at he
        subst he
        simp [strip, reconstructs]
        exact goRoundtripFields fields hg1 es hl
  | .unsupportedV k, hg, e, _ => by simp [good] at hg

theorem goRoundtripList : (vs : List RValue) → goodList vs = true → (es : List Expr) →
    constructList vs = .ok es → reconstructsList es (stripList vs) = true
  | [], _, es, he => by
      simp [constructList] at he
      subst he
      rfl
  | v :: vs, hg, es, he => by
      obtain ⟨e, es1, hv, hl, rfl⟩ := constructList_cons_ok he
      have hg1 : good v = true ∧ goodList vs = true := by
        simpa [goodList, Bool.and_eq_true] using hg
      simp [stripList, reconstructsList, goRoundtripV v hg1.1 e hv,
        goRoundtripList vs hg1.2 es1 hl]

theorem goRoundtripFields : (fs : List (String × Bool × RValue)) → goodFields fs = true →
    (es : List (Expr × Expr)) → constructFields fs = .ok es →
    reconstructsFields es (stripFields fs) = true
  | [], _, es, he => by
      simp [constructFields] at he
      subst he
      rfl
  | (nm, false, v) :: rest, hg, es, he => by
      have hg1 : goodFields rest = true := by simpa [goodFields] using hg
      have he1 : constructFields rest = .ok es := by simpa [constructFields] using he
      simpa [stripFields] using goRoundtripFields rest hg1 es he1
  | (nm, true, v) :: rest, hg, es, he => by
      obtain ⟨ve, es1, hv, hr, rfl⟩ := constructFields_cons_ok he
      have hg1 : good v = true ∧ goodFields rest = true := by
        simpa [goodFields, Bool.and_eq_true] using hg
      simp [stripFields, reconstructsFields, Expr.keyIs, goRoundtripV v hg1.1 ve hv,
        goRoundtripFields rest hg1.2 es1 hr]

end

/-- C1 (amended): for every supported Runtime Value that contains no
fixed-length array and no present (non-nil) map, whose pointers all point
at composite-encoded values, and whose present polymorphic slots all hold
values not encoding to the `nil` literal (the conjunction packaged as
`good`), compiling and executing the expression produced by
`constructValue` reconstructs a value deeply equal to the value restricted
to its participating (visible) fields.  Arrays are excluded because they
encode as slice literals; present maps because their encodings use the
`[K]V{...}` type form the resolver emits, which is not compilable Go. -/
theorem roundtrip_restricted :
    ∀ (v : RValue) (e : Expr), good v = true → constructValue v = .ok e →
      reconstructs e (strip v) = true :=
  fun v e hg he => goRoundtripV v hg e he

theorem roundtrip_restricted_witness :
    reconstructs (.compositeDict (.qual "pkg" "T") [(.id "A", .litE .int 1)])
      (strip (.structV "pkg" "T"
        [("A", true, .scalar .int 1), ("b", false, .unsupportedV "func")])) = true :=
  roundtrip_restricted
    (.structV "pkg" "T" [("A", true, .scalar .int 1), ("b", false, .unsupportedV "func")])
    (.compositeDict (.qual "pkg" "T") [(.id "A", .litE .int 1)]) rfl rfl

/-- C1 counterexample: the claim as stated fails on fixed-length arrays,
which are supported (the array branch encodes them without error).  The
encoder renders the one-element array of `int` as the slice literal
`[]int{5}`, because `indirectType` maps array types to the `[]Elem` type
expression; compiling and executing a `[]int{...}` composite literal yields
a slice value in every Go context, never a fixed-length array, so the
reconstructed value is not deeply equal to the original array. -/
theorem roundtrip_array_counterexample :
    supported (.arrayV (.named "" "int") [.scalar .int 5]) = true ∧
    constructValue (.arrayV (.named "" "int") [.scalar .int 5]) =
      .ok (.composite (.indexEmpty (.qual "" "int")) [.litE .int 5]) ∧
    reconstructs (.composite (.indexEmpty (.qual "" "int")) [.litE .int 5])
      (strip (.arrayV (.named "" "int") [.scalar .int 5])) = false :=
  ⟨rfl, rfl, rfl⟩

theorem perm_short {α : Type} {l l1 : List α} (h : List.Perm l l1) (hl : l.length ≤ 1) :
    l1 = l := by
  match l, h, hl with
  | [], h, _ => exact h.nil_eq.symm
  | [a], h, _ => exact (List.singleton_perm.mp h).symm
  | a :: b :: rest, _, hl => simp at hl

mutual

theorem runEquivEqV : {v v1 : RValue} → RunEquiv v v1 → smallMaps v = true → v = v1
  | _, _, .scalar, _ => rfl
  | .arrayV t es, .arrayV _ es1, .arrayV h1, hs => by
      rw [runEquivEqList h1 (by simpa [smallMaps] using hs)]
  | _, _, .sliceNone, _ => rfl
  | .sliceV t (some es), .sliceV _ (some es1), .sliceSome h1, hs => by
      rw [runEquivEqList h1 (by simpa [smallMaps] using hs)]
  | _, _, .ifaceNone, _ => rfl
  | .ifaceV (some w), .ifaceV (some w1), .ifaceSome h1, hs => by
      rw [runEquivEqV h1 (by simpa [smallMaps] using hs)]
  | _, _, .ptrNone, _ => rfl
  | .ptrV (some w), .ptrV (some w1), .ptrSome h1, hs => by
      rw [runEquivEqV h1 (by simpa [smallMaps] using hs)]
  | _, _, .mapNone, _ => rfl
  | .mapV kt vt (some es), .mapV _ _ (some es1), @RunEquiv.mapSome _ _ _ mid _ h1 h2, hs => by
      have hs1 : es.length ≤ 1 ∧ smallMapsEntries es = true := by
        simpa [smallMaps, Bool.and_eq_true, decide_eq_true_eq] using hs
      have hm : es = mid := runEquivEqEntries h1 hs1.2
      subst hm
      rw [perm_short h2 hs1.1]
  | .structV p n fs, .structV _ _ fs1, .structV h1, hs => by
      rw [runEquivEqFields h1 (by simpa [smallMaps] using hs)]
  | _, _, .unsupportedV, _ => rfl

theorem runEquivEqList : {vs vs1 : List RValue} → RunEquivList vs vs1 →
    smallMapsList vs = true → vs = vs1
  | _, _, .nil, _ => rfl
  | v :: vs, v1 :: vs1, .cons h1 h2, hs => by
      have hs1 : smallMaps v = true ∧ smallMapsList vs = true := by
        simpa [smallMapsList, Bool.and_eq_true] using hs
      rw [runEquivEqV h1 hs1.1, runEquivEqList h2 hs1.2]

theorem runEquivEqEntries : {ws ws1 : List (RValue × RValue)} → RunEquivEntries ws ws1 →
    smallMapsEntries ws = true → ws = ws1
  | _, _, .nil, _ => rfl
  | (k, v) :: rest, (k1, v1) :: rest1, .cons hk hv hr, hs => by
      have hs1 : smallMaps k = true ∧ smallMaps v = true ∧ smallMapsEntries rest = true := by
        simpa [smallMapsEntries, Bool.and_eq_true, and_assoc] using hs
      rw [runEquivEqV hk hs1.1, runEquivEqV hv hs1.2.1, runEquivEqEntries hr hs1.2.2]

theorem runEquivEqFields : {fs fs1 : List (String × Bool × RValue)} → RunEquivFields fs fs1 →
    smallMapsFields fs = true → fs = fs1
  | _, _, .nil, _ => rfl
  | (nm, vis, v) :: rest, (_, _, v1) :: rest1, .cons h1 h2, hs => by
      have hs1 : smallMaps v = true ∧ smallMapsFields rest = true := by
        simpa [smallMapsFields, Bool.and_eq_true] using hs
      rw [runEquivEqV h1 hs1.1, runEquivEqFields h2 hs1.2]

end

/-- C9: determinism modulo map order.  Two reflection runs over the same
value can differ only in map iteration order (`RunEquiv`).  When every
contained map is absent, empty or singleton, any two runs encode to the
same result; and maps with at least two entries genuinely can produce
different outputs, witnessed by a two-entry map whose two enumeration
orders encode to different entry lists. -/
theorem determinism_modulo_map_order :
    (∀ v v1 : RValue, smallMaps v = true → RunEquiv v v1 →
      constructValue v = constructValue v1) ∧
    (∃ v v1 : RValue, RunEquiv v v1 ∧ constructValue v ≠ constructValue v1) := by
  constructor
  · intro v v1 hs h
    rw [runEquivEqV h hs]
  · refine ⟨.mapV (.named "" "int") (.named "" "int")
        (some [(.scalar .int 1, .scalar .int 10), (.scalar .int 2, .scalar .int 20)]),
      .mapV (.named "" "int") (.named "" "int")
        (some [(.scalar .int 2, .scalar .int 20), (.scalar .int 1, .scalar .int 10)]),
      ?_, ?_⟩
    · exact RunEquiv.mapSome
        (RunEquivEntries.cons RunEquiv.scalar RunEquiv.scalar
          (RunEquivEntries.cons RunEquiv.scalar RunEquiv.scalar RunEquivEntries.nil))
        (List.Perm.swap (RValue.scalar .int 2, RValue.scalar .int 20) (RValue.scalar .int 1, RValue.scalar .int 10) [])
    · intro h
      have h1 : firstEntryKeyPayload (constructValue (.mapV (.named "" "int") (.named "" "int")
          (some [(.scalar .int 1, .scalar .int 10), (.scalar .int 2, .scalar .int 20)]))) = 1 :=
        rfl
      have h2 : firstEntryKeyPayload (constructValue (.mapV (.named "" "int") (.named "" "int")
          (some [(.scalar .int 2, .scalar .int 20), (.scalar .int 1, .scalar .int 10)]))) = 2 :=
        rfl
      have h3 : (1 : Nat) = 2 := by rw [← h1, h]; exact h2
      exact absurd h3 (by decide)

theorem determinism_modulo_map_order_witness :
    constructValue (.mapV (.named "" "string") (.named "" "int")
        (some [(.scalar .string 7, .scalar .int 1)])) =
      constructValue (.mapV (.named "" "string") (.named "" "int")
        (some [(.scalar .string 7, .scalar .int 1)])) :=
  determinism_modulo_map_order.1
    (.mapV (.named "" "string") (.named "" "int")
      (some [(.scalar .string 7, .scalar .int 1)]))
    (.mapV (.named "" "string") (.named "" "int")
      (some [(.scalar .string 7, .scalar .int 1)]))
    rfl
    (RunEquiv.mapSome
      (RunEquivEntries.cons RunEquiv.scalar RunEquiv.scalar RunEquivEntries.nil)
      (List.Perm.refl [(RValue.scalar .string 7, RValue.scalar .int 1)]))
